import Mathlib

/-! # RGB LED demonstration programs: a shallow embedding

Two programs drive an RGB LED through the wiringPi library:

* `led_demo.cpp`: an interactive command loop with a static colour setter
  (`set_colour`), a sequence runner (`free_run`), a hardware fade
  (`hardware_pwm`) and a software fade (`software_pwm`);
* `led_select.c`: a single-shot selector that lights one LED named on the
  command line.

The programs only talk to the outside world through calls of the C library
and of wiringPi.  Every such call is recorded as an `Event`; a function of
the source becomes a Lean function that returns the list of events it
produces, in program order.  Loops that never end are given a number of
rounds to run and return the events of that many rounds.
-/

namespace WiringPi

/-! ## The calls the programs make -/

/-- Pin modes of wiringPi that the programs use. -/
inductive PinMode
  | OUTPUT
  | PWM_OUTPUT
  deriving DecidableEq, Repr

/-- One call into the C library or into wiringPi, with its arguments.
`printf` carries the text that reaches standard output. -/
inductive Event
  | printf (text : String)
  | wiringPiSetup
  | pinMode (pin : Nat) (mode : PinMode)
  | digitalWrite (pin : Nat) (value : Int)
  | pwmWrite (pin : Nat) (value : Int)
  | softPwmCreate (pin : Nat) (initialValue : Int) (pwmRange : Int)
  | softPwmWrite (pin : Nat) (value : Int)
  | usleep (us : Nat)
  deriving DecidableEq, Repr

/-- The digital writes of a trace, in order, as (pin, value) pairs. -/
def digitalWrites : List Event → List (Nat × Int)
  | [] => []
  | Event.digitalWrite pin value :: rest => (pin, value) :: digitalWrites rest
  | _ :: rest => digitalWrites rest

/-- The texts printed by a trace, in order. -/
def printed : List Event → List String
  | [] => []
  | Event.printf text :: rest => text :: printed rest
  | _ :: rest => printed rest

/-- The level of every digital line.  wiringPi drives a line low when the
value written is `LOW` (0) and high for any other value. -/
abbrev Pins := Nat → Bool

/-- The effect of one call on the digital lines. -/
def applyEvent (pins : Pins) : Event → Pins
  | Event.digitalWrite pin value => fun p => if p = pin then decide (value ≠ 0) else pins p
  | _ => pins

/-- The effect of a whole trace on the digital lines. -/
def runPins (pins : Pins) (trace : List Event) : Pins :=
  trace.foldl applyEvent pins

/-- The value `EXIT_SUCCESS` of `stdlib.h`. -/
def EXIT_SUCCESS : Int := 0

end WiringPi

namespace LedDemo

open WiringPi

/-! ## Pin mappings and colours (`led_demo.cpp`, lines 23-62) -/

/-- Red LED pin mapping. -/
def RED_LED : Nat := 0
/-- Green LED pin mapping. -/
def GRN_LED : Nat := 1
/-- Blue LED pin mapping. -/
def BLU_LED : Nat := 2

/-- The number of microseconds in a second. -/
def US_PER_S : Nat := 1000000

/-- The available colour list of `enum LedColours`. -/
inductive LedColours
  | Off
  | Red
  | Green
  | Blue
  | Cyan
  | Magenta
  | Yellow
  | White
  deriving DecidableEq, Repr

/-- The integer value of each enumerator: red, green and blue sit on
different bits and the mixtures are written as ORs, as in the source. -/
def LedColours.val : LedColours → Nat
  | .Off => 0
  | .Red => 1
  | .Green => 2
  | .Blue => 4
  | .Cyan => 4 ||| 2
  | .Magenta => 4 ||| 1
  | .Yellow => 1 ||| 2
  | .White => 1 ||| 2 ||| 4

open LedColours

/-- The sequence to flash or fade. -/
def LED_COL_SEQUENCE : List LedColours :=
  [Red, Blue, Green, Blue, Cyan, Magenta, Yellow, White]

/-- The size of the sequence list. -/
def SEQUENCE_COUNT : Nat := LED_COL_SEQUENCE.length

/-- Reading `LED_COL_SEQUENCE[i]`.  The programs only read indices below
`SEQUENCE_COUNT`; the default is never reached by them. -/
def seqAt (i : Nat) : LedColours := LED_COL_SEQUENCE.getD i Off

/-! ## The static setter (`led_demo.cpp`, lines 64-80) -/

/-- The macro `UPDATE_LED(pin, col, val)`: print the action, then write
`val & col` to the pin.  `name` is the stringised `col`. -/
def UPDATE_LED (pin : Nat) (name : String) (col : LedColours) (val : LedColours) :
    List Event :=
  [ Event.printf
      ("Turning " ++ name ++ " " ++ (if val.val &&& col.val ≠ 0 then "on" else "off") ++ "\n"),
    Event.digitalWrite pin ((val.val &&& col.val : Nat) : Int) ]

/-- Sets the relevant LED pins. -/
def set_colour (col : LedColours) : List Event :=
  UPDATE_LED RED_LED "Red" Red col ++
  UPDATE_LED GRN_LED "Green" Green col ++
  UPDATE_LED BLU_LED "Blue" Blue col

/-- Whether a colour has the bit of a channel (0 red, 1 green, 2 blue). -/
def hasChannel (c : LedColours) (channel : Nat) : Bool := c.val.testBit channel

/-! ## The sequence runner (`led_demo.cpp`, lines 85-96) -/

/-- The colours that one pass of `for (i = 0; i < SEQUENCE_COUNT; ++i)`
hands to `set_colour`, in order: `LED_COL_SEQUENCE[i]` for each `i`. -/
def free_run_pass : List LedColours :=
  (List.range SEQUENCE_COUNT).map seqAt

/-- The colours handed to `set_colour` by the first `rounds` passes of the
`while (true)` loop of `free_run`. -/
def free_run_colours : Nat → List LedColours
  | 0 => []
  | rounds + 1 => free_run_pass ++ free_run_colours rounds

/-- The calls made by `free_run` up to the end of the first `rounds` passes
of its endless loop: each colour is set, then the thread sleeps 500 ms. -/
def free_run (rounds : Nat) : List Event :=
  Event.printf "Free running! Use CTRL+C to exit.\n" ::
    (free_run_colours rounds).flatMap fun c => set_colour c ++ [Event.usleep 500000]

/-! ## The software fade (`led_demo.cpp`, lines 139-178) -/

namespace software_pwm

/-- Number of steps of one fade. -/
def LED_STEPS : Int := 100
/-- Fades per second. -/
def FLASH_FREQ : Int := 1
/-- Sleep per step: `US_PER_S / (FLASH_FREQ * LED_STEPS)`, an unsigned division. -/
def SLEEP_TIME_US : Nat := US_PER_S / (FLASH_FREQ * LED_STEPS).toNat

/-- The local variables of `software_pwm`: the two sequence indices and the
three duty counters. -/
structure Fade where
  last : Nat
  next : Nat
  r : Int
  g : Int
  b : Int
  deriving DecidableEq, Repr

/-- The expression `(LED_STEPS * (LED_COL_SEQUENCE[last] & ch)) / ch`, in `int`
arithmetic (division truncates). -/
def initialDuty (c ch : LedColours) : Int :=
  Int.tdiv (LED_STEPS * ((c.val &&& ch.val : Nat) : Int)) (ch.val : Int)

/-- The expression
`((LED_COL_SEQUENCE[next] & ch) - (LED_COL_SEQUENCE[last] & ch)) / ch`, in `int`
arithmetic (division truncates). -/
def offset (next last ch : LedColours) : Int :=
  Int.tdiv (((next.val &&& ch.val : Nat) : Int) - ((last.val &&& ch.val : Nat) : Int))
    (ch.val : Int)

/-- The variables before the first pass of the endless loop. -/
def start : Fade :=
  { last := 0
    next := 1
    r := initialDuty (seqAt 0) Red
    g := initialDuty (seqAt 0) Green
    b := initialDuty (seqAt 0) Blue }

/-- The inner `for` loop run for `n` iterations from counters `(r, g, b)`:
each iteration adds the offsets, writes the three new values and sleeps.
Returns the counters at the end and the calls made. -/
def fade_steps (r_o g_o b_o : Int) : Nat → Int × Int × Int → (Int × Int × Int) × List Event
  | 0, rgb => (rgb, [])
  | n + 1, (r, g, b) =>
    let r := r + r_o
    let g := g + g_o
    let b := b + b_o
    let rest := fade_steps r_o g_o b_o n (r, g, b)
    (rest.1,
      [ Event.softPwmWrite RED_LED r, Event.softPwmWrite GRN_LED g,
        Event.softPwmWrite BLU_LED b, Event.usleep SLEEP_TIME_US ] ++ rest.2)

/-- One pass of the endless loop: compute the offsets, run the inner loop
`LED_STEPS` times, then advance `last` and `next`. -/
def transition (s : Fade) : Fade × List Event :=
  let r_o := offset (seqAt s.next) (seqAt s.last) Red
  let g_o := offset (seqAt s.next) (seqAt s.last) Green
  let b_o := offset (seqAt s.next) (seqAt s.last) Blue
  let done := fade_steps r_o g_o b_o LED_STEPS.toNat (s.r, s.g, s.b)
  let last := s.next
  let next := (last + 1) % SEQUENCE_COUNT
  ({ last := last, next := next, r := done.1.1, g := done.1.2.1, b := done.1.2.2 }, done.2)

/-- The first `rounds` passes of the endless loop from the variables `s`. -/
def passes : Nat → Fade → Fade × List Event
  | 0, s => (s, [])
  | rounds + 1, s =>
    let one := transition s
    let rest := passes rounds one.1
    (rest.1, one.2 ++ rest.2)

end software_pwm

/-- The calls made by `software_pwm` up to the end of the first `rounds`
passes of its endless loop. -/
def software_pwm (rounds : Nat) : List Event :=
  [ Event.printf "Free running with software PWM. Use CTRL+C to exit.\n",
    Event.softPwmCreate RED_LED software_pwm.start.r software_pwm.LED_STEPS,
    Event.softPwmCreate GRN_LED software_pwm.start.g software_pwm.LED_STEPS,
    Event.softPwmCreate BLU_LED software_pwm.start.b software_pwm.LED_STEPS ] ++
    (software_pwm.passes rounds software_pwm.start).2

/-- The values handed to `softPwmWrite` by a trace, in order. -/
def softPwmValues : List Event → List (Nat × Int)
  | [] => []
  | Event.softPwmWrite pin value :: rest => (pin, value) :: softPwmValues rest
  | _ :: rest => softPwmValues rest

/-! ## The hardware fade (`led_demo.cpp`, lines 104-132)

The fade computes `pow(2, i / r) - 1` in floating point.  The model keeps
every number as an exact fraction of naturals:

* a conversion to `float` and the `float` division `i / r` are rounded to
  the nearest binary32 number, ties to even, as IEEE 754 prescribes
  (`roundBinary32`; all values met here are zero or normal numbers);
* the library functions `log10` and `pow` are taken at their mathematical
  values.  For `r` this uses `log10(1024) = 10 * log10(2)`, so the quotient
  computed in `double` is `LED_STEPS / 10` up to the rounding of `double`,
  which is far too small to change the nearest binary32 number
  (see `roundBinary32_near_r`).  For `pow(2, x) - 1`, converted to `int` by
  dropping the fraction, the result is the floor of the real `2 ^ x` less
  one (see `floorPow2_spec`), as `2 ^ x ≥ 1` for the `x ≥ 0` met here; at
  every step of the fade the real power is an exact integer or keeps a
  relative distance of `2⁻⁴⁰` from the integers (see
  `hardware_pwm.pwm_margin`), so the rounding of `pow` cannot change it.
-/

/-- A non-negative rational number `num / den`, not necessarily in lowest
terms. -/
structure Frac where
  num : Nat
  den : Nat
  deriving DecidableEq, Repr

/-- The integer nearest to `p / q`, ties to the even one. -/
def roundHalfEven (p q : Nat) : Nat :=
  let n := p / q
  let rem := p % q
  if 2 * rem < q then n
  else if q < 2 * rem then n + 1
  else if n % 2 = 0 then n else n + 1

/-- The number of binary digits of `n`, counted with `fuel ≥ n` halvings. -/
def bitLength : Nat → Nat → Nat
  | 0, _ => 0
  | fuel + 1, n => if n = 0 then 0 else bitLength fuel (n / 2) + 1

/-- The exponent `e` with `2 ^ e ≤ n < 2 ^ (e + 1)`, for `n ≥ 1`. -/
def log2Floor (n : Nat) : Nat := bitLength n n - 1

/-- The binary32 number nearest to `x` (24 significant bits, ties to even),
for `x` zero or in the range of normal numbers. -/
def roundBinary32 (x : Frac) : Frac :=
  if x.num = 0 then ⟨0, 1⟩
  else if x.den ≤ x.num then
    -- 2 ^ e ≤ x < 2 ^ (e + 1)
    let e := log2Floor (x.num / x.den)
    if e ≤ 23 then ⟨roundHalfEven (x.num * 2 ^ (23 - e)) x.den, 2 ^ (23 - e)⟩
    else ⟨roundHalfEven x.num (x.den * 2 ^ (e - 23)) * 2 ^ (e - 23), 1⟩
  else
    -- 2 ^ (-k) ≤ x < 2 ^ (1 - k)
    let k := log2Floor ((x.den - 1) / x.num) + 1
    ⟨roundHalfEven (x.num * 2 ^ (23 + k)) x.den, 2 ^ (23 + k)⟩

/-- The largest `n` below `acc + 2 ^ bits` with `n ^ k ≤ N`, found bit by
bit from the top, given `acc ^ k ≤ N`. -/
def irootBits (k N : Nat) : Nat → Nat → Nat
  | 0, acc => acc
  | b + 1, acc => irootBits k N b (if (acc + 2 ^ b) ^ k ≤ N then acc + 2 ^ b else acc)

/-- The floor of the real number `2 ^ x`: the largest `n` with
`n ^ den ≤ 2 ^ num`, the fraction first put in lowest terms. -/
def floorPow2 (x : Frac) : Nat :=
  let g := Nat.gcd x.num x.den
  irootBits (x.den / g) (2 ^ (x.num / g)) (x.num / x.den + 1) 0

namespace hardware_pwm

/-- Number of steps of one ramp. -/
def LED_STEPS : Nat := 256
/-- Pulses per second. -/
def FLASH_FREQ : Nat := 2
/-- Sleep per step: `US_PER_S / (FLASH_FREQ * LED_STEPS)`, an unsigned division. -/
def SLEEP_TIME_US : Nat := US_PER_S / (FLASH_FREQ * LED_STEPS)

/-- The constant `const float r = (LED_STEPS * log10(2)) / (log10(1024))`:
the quotient `LED_STEPS / 10` converted to `float`. -/
def r : Frac := roundBinary32 ⟨LED_STEPS, 10⟩

/-- The `float` quotient `i / r`. -/
def quotient (i : Nat) : Frac := roundBinary32 ⟨i * r.den, r.num⟩

/-- The value of `const int pwm = pow(2, (i / r)) - 1`. -/
def pwm (i : Nat) : Int := (floorPow2 (quotient i) : Int) - 1

/-- Ramp up the brightness: `for (int i = 0; i < LED_STEPS; ++i)`. -/
def ramp_up : List Event :=
  (List.range LED_STEPS).flatMap fun i =>
    [Event.pwmWrite GRN_LED (pwm i), Event.usleep SLEEP_TIME_US]

/-- Ramp down the brightness: `for (int i = LED_STEPS; i > 0; --i)`. -/
def ramp_down : List Event :=
  (List.range LED_STEPS).flatMap fun k =>
    [Event.pwmWrite GRN_LED (pwm (LED_STEPS - k)), Event.usleep SLEEP_TIME_US]

/-- The first `rounds` passes of the endless loop. -/
def passes : Nat → List Event
  | 0 => []
  | rounds + 1 => ramp_up ++ ramp_down ++ passes rounds

end hardware_pwm

/-- The calls made by `hardware_pwm` up to the end of the first `rounds`
passes of its endless loop. -/
def hardware_pwm (rounds : Nat) : List Event :=
  [Event.printf "Green LED pulse! Use CTRL+C to exit.\n"] ++ set_colour Off ++
    [Event.pinMode GRN_LED PinMode.PWM_OUTPUT] ++ hardware_pwm.passes rounds

/-- The values handed to `pwmWrite` by a trace, in order. -/
def pwmValues : List Event → List (Nat × Int)
  | [] => []
  | Event.pwmWrite pin value :: rest => (pin, value) :: pwmValues rest
  | _ :: rest => pwmValues rest

/-! ## The interactive command loop (`led_demo.cpp`, lines 183-250) -/

/-- The three functions of the program that never return. -/
inductive Driver
  | free_run
  | hardware_pwm
  | software_pwm
  deriving DecidableEq, Repr

/-- The calls a driver makes in its first `rounds` passes. -/
def Driver.trace : Driver → Nat → List Event
  | .free_run, rounds => LedDemo.free_run rounds
  | .hardware_pwm, rounds => LedDemo.hardware_pwm rounds
  | .software_pwm, rounds => LedDemo.software_pwm rounds

/-- The state of `main` while in its loop: the bytes still waiting on
standard input, the flag `running`, the driver that was entered (if one
was) and the calls made so far. -/
structure LoopState where
  input : List (Fin 256)
  running : Bool
  entered : Option Driver
  trace : List Event
  deriving DecidableEq, Repr

/-- The value `EOF` of `stdio.h`. -/
def EOF : Int := -1

/-- The function `getchar`: the next byte as a non-negative `int`, or `EOF`
when the input is exhausted; with the input that remains. -/
def getchar : List (Fin 256) → Int × List (Fin 256)
  | [] => (EOF, [])
  | byte :: rest => ((byte.val : Int), rest)

/-- The function `toupper` in the "C" locale (the program never changes the
locale): lower-case ASCII letters are mapped to upper case, every other
value, `EOF` included, is returned unchanged. -/
def toupper (c : Int) : Int :=
  if ('a'.toNat : Int) ≤ c ∧ c ≤ ('z'.toNat : Int) then c - ('a'.toNat : Int) + ('A'.toNat : Int)
  else c

/-- The conversion `static_cast<char>(opt)`, an 8-bit `char` holding the
value modulo 256; whether `char` is signed is left to the platform. -/
def static_cast_char (charSigned : Bool) (opt : Int) : Int :=
  let low := opt % 256
  if charSigned ∧ 128 ≤ low then low - 256 else low

/-- One pass of the `while (running)` loop: read a character, upper-case
it, and act on it as the `switch` does. -/
def loop_body (charSigned : Bool) (s : LoopState) : LoopState :=
  let read := getchar s.input
  let opt := toupper read.1
  let c := static_cast_char charSigned opt
  let s := { s with input := read.2 }
  if c = ('R'.toNat : Int) then { s with trace := s.trace ++ set_colour Red }
  else if c = ('G'.toNat : Int) then { s with trace := s.trace ++ set_colour Green }
  else if c = ('B'.toNat : Int) then { s with trace := s.trace ++ set_colour Blue }
  else if c = ('C'.toNat : Int) then { s with trace := s.trace ++ set_colour Cyan }
  else if c = ('M'.toNat : Int) then { s with trace := s.trace ++ set_colour Magenta }
  else if c = ('Y'.toNat : Int) then { s with trace := s.trace ++ set_colour Yellow }
  else if c = ('W'.toNat : Int) then { s with trace := s.trace ++ set_colour White }
  else if c = ('X'.toNat : Int) then { s with running := false }
  else if c = ('F'.toNat : Int) then { s with entered := some Driver.free_run }
  else if c = ('P'.toNat : Int) then { s with entered := some Driver.hardware_pwm }
  else if c = ('S'.toNat : Int) then { s with entered := some Driver.software_pwm }
  else if c = ('\n'.toNat : Int) then s
  else { s with trace := s.trace ++ set_colour Off }

/-- The loop `while (running)` given `fuel` rounds: a pass of the loop
costs one round, and once a driver is entered the rounds that are left are
spent in the driver, which never hands control back. -/
def main_loop (charSigned : Bool) : Nat → LoopState → LoopState
  | 0, s => s
  | fuel + 1, s =>
    match s.entered with
    | some d => { s with trace := s.trace ++ d.trace (fuel + 1) }
    | none =>
      if s.running then main_loop charSigned fuel (loop_body charSigned s) else s

/-- The calls of `main` before the loop: the menu, the set-up of wiringPi
and the three pin modes. -/
def main_prologue : List Event :=
  [ Event.printf "Enter a letter from the following:\n",
    Event.printf "* R (Red)\n",
    Event.printf "* G (Green)\n",
    Event.printf "* B (Blue)\n",
    Event.printf "* C (Cyan)\n",
    Event.printf "* M (Magenta)\n",
    Event.printf "* Y (Yellow)\n",
    Event.printf "* W (White)\n",
    Event.printf "* F  Free run - changes colour forever.\n",
    Event.printf "* P  Pulse - pulses the green LED forever (hardware PWM).\n",
    Event.printf "* S  Software PWM pulse - changes colour forever with software PWM fades.\n",
    Event.printf "* X  Exit\n",
    Event.wiringPiSetup,
    Event.pinMode RED_LED PinMode.OUTPUT,
    Event.pinMode GRN_LED PinMode.OUTPUT,
    Event.pinMode BLU_LED PinMode.OUTPUT ]

/-- The state in which `main` enters its loop. -/
def main_entry (input : List (Fin 256)) : LoopState :=
  { input := input, running := true, entered := none, trace := main_prologue }

/-- The program `led_demo` on the given standard input, run for at most
`fuel` rounds: the exit status if `main` returned within them (`none` if it
is still running) and the calls made. -/
def main (charSigned : Bool) (fuel : Nat) (input : List (Fin 256)) : Option Int × List Event :=
  let s := main_loop charSigned fuel (main_entry input)
  if s.running = false then (some EXIT_SUCCESS, s.trace ++ [Event.printf "Exiting.\n"])
  else (none, s.trace)

/-- The transition table of the spec for one input byte, read by its
upper-cased value: `some c` when the static setter is called with `c`,
`none` for a newline (no-op).  The bytes F, P, S and X are not in its
domain of use. -/
def commandColour (byte : Fin 256) : Option LedColours :=
  let u := (Char.ofNat byte.val).toUpper
  if u = 'R' then some Red
  else if u = 'G' then some Green
  else if u = 'B' then some Blue
  else if u = 'C' then some Cyan
  else if u = 'M' then some Magenta
  else if u = 'Y' then some Yellow
  else if u = 'W' then some White
  else if u = '\n' then none
  else some Off

/-- Whether a byte is one of the given letters, in either case. -/
def isLetter (byte : Fin 256) (letters : List Char) : Bool :=
  letters.any fun l => (Char.ofNat byte.val).toUpper = l.toUpper

/-- The calls of the static setter for a list of input bytes, by the
transition table of the spec. -/
def commandTrace (bytes : List (Fin 256)) : List Event :=
  bytes.flatMap fun byte =>
    match commandColour byte with
    | some c => set_colour c
    | none => []

/-- The bytes of an ASCII text. -/
def bytesOf (text : String) : List (Fin 256) :=
  text.toList.map fun ch => Fin.ofNat ch.toNat

/-! ## Reading the claims -/

/-- The bit of channel `ch` (one of `Red`, `Green`, `Blue`) in colour `c`,
as 0 or 1. -/
def channelBit (c ch : LedColours) : Int :=
  if c.val &&& ch.val ≠ 0 then 1 else 0

/-- The duty a channel has when the fade rests on colour `c`: `LED_STEPS`
if the channel's bit is set in `c`, else 0. -/
def restDuty (c ch : LedColours) : Int :=
  if c.val &&& ch.val ≠ 0 then software_pwm.LED_STEPS else 0

/-- The counters of `s` are those of the fade resting on sequence entry
`s.last`, and `s.next` is the cyclic successor of `s.last`. -/
def software_pwm.AtRest (s : software_pwm.Fade) : Prop :=
  s.last < SEQUENCE_COUNT ∧ s.next = (s.last + 1) % SEQUENCE_COUNT ∧
    s.r = restDuty (seqAt s.last) Red ∧
    s.g = restDuty (seqAt s.last) Green ∧
    s.b = restDuty (seqAt s.last) Blue

end LedDemo

namespace LedSelect

open WiringPi

/-! ## The single-shot selector (`led_select.c`) -/

/-- GPIO mapping of the red LED. -/
def RED_GPIO : Nat := 0
/-- GPIO mapping of the green LED. -/
def GRN_GPIO : Nat := 1
/-- GPIO mapping of the blue LED. -/
def BLU_GPIO : Nat := 2
/-- The enumerator after the three mappings. -/
def LED_COUNT : Nat := 3

/-- The table of the GPIOs to loop through. -/
def AVAILABLE_GPIOS : List Nat := [ RED_GPIO, GRN_GPIO, BLU_GPIO]

/-- The check of the input arguments: the value left in `gpio` (`-1` when no
LED is chosen) and the line printed, if one is. -/
def check_arguments (file : String) (argv : List String) : Int × List Event :=
  if 2 ≤ argv.length then
    let arg := argv.getD 1 ""
    if arg = "red" then (( RED_GPIO : Int), [Event.printf "Turning the red LED on.\n"])
    else if arg = "green" then (( GRN_GPIO : Int), [Event.printf "Turning the green LED on.\n"])
    else if arg = "blue" then (( BLU_GPIO : Int), [Event.printf "Turning the blue LED on.\n"])
    else (-1, [])
  else
    (-1, [Event.printf ("Usage: ./" ++ file ++ " <colour> \x7bred|green|blue\x7d\n")])

/-- The loop over the available LEDs: each GPIO is written with the value
of the comparison `AVAILABLE_GPIOS[i] == gpio`, 1 or 0. -/
def write_leds (gpio : Int) : List Event :=
  (List.range LED_COUNT).map fun i =>
    let pin := AVAILABLE_GPIOS.getD i 0
    Event.digitalWrite pin (if (pin : Int) = gpio then 1 else 0)

/-- The program `led_select`: `argv` holds the program name and then the
arguments (`argc` is its length), `file` is the expansion of `__FILE__`.
Returns the exit status and the calls made. -/
def main (file : String) (argv : List String) : Int × List Event :=
  let setup :=
    [ Event.wiringPiSetup,
      Event.pinMode RED_GPIO PinMode.OUTPUT,
      Event.pinMode GRN_GPIO PinMode.OUTPUT,
      Event.pinMode BLU_GPIO PinMode.OUTPUT ]
  let checked := check_arguments file argv
  (EXIT_SUCCESS, setup ++ checked.2 ++ write_leds checked.1)

/-- The value written to the line of the LED called `name`, by the spec:
on (1) exactly when a first argument is present and is exactly `name`. -/
def lineValue (argv : List String) (name : String) : Int :=
  if argv[1]? = some name then 1 else 0

/-- A first argument is missing, or is none of the three colour names. -/
def badArgument (argv : List String) : Prop :=
  argv[1]? ≠ some "red" ∧ argv[1]? ≠ some "green" ∧ argv[1]? ≠ some "blue"

end LedSelect

namespace LedDemo

open WiringPi LedColours

/-- C1: for each of the eight colours and any earlier state of the lines,
`set_colour c` makes exactly three digital writes, to pins 0, 1 and 2 in
that order; the value written to a line is non-zero exactly when the
channel's bit is set in `c`; afterwards the three lines show exactly the
bits of `c` (other lines are untouched); and calling it twice leaves the
same lines as calling it once. -/
theorem set_colour_writes_bits (c : LedColours) (pins : Pins) :
    (∃ vr vg vb : Int,
        digitalWrites (set_colour c) = [(0, vr), (1, vg), (2, vb)] ∧
        (vr ≠ 0 ↔ hasChannel c 0 = true) ∧
        (vg ≠ 0 ↔ hasChannel c 1 = true) ∧
        (vb ≠ 0 ↔ hasChannel c 2 = true)) ∧
      runPins pins (set_colour c) 0 = hasChannel c 0 ∧
      runPins pins (set_colour c) 1 = hasChannel c 1 ∧
      runPins pins (set_colour c) 2 = hasChannel c 2 ∧
      (∀ p, 2 < p → runPins pins (set_colour c) p = pins p) ∧
      runPins pins (set_colour c ++ set_colour c) = runPins pins (set_colour c) := by
  refine ⟨?_, ?_, ?_, ?_, ?_, ?_⟩
  · refine ⟨((c.val &&& Red.val : Nat) : Int), ((c.val &&& Green.val : Nat) : Int),
      ((c.val &&& Blue.val : Nat) : Int), rfl, ?_⟩
    cases c <;> decide
  · cases c <;> rfl
  · cases c <;> rfl
  · cases c <;> rfl
  · intro p hp
    have h0 : p ≠ 0 := by omega
    have h1 : p ≠ 1 := by omega
    have h2 : p ≠ 2 := by omega
    simp [set_colour, UPDATE_LED, runPins, applyEvent, RED_LED, GRN_LED, BLU_LED, h0, h1, h2]
  · funext p
    simp only [set_colour, UPDATE_LED, runPins, applyEvent, RED_LED, GRN_LED, BLU_LED,
      List.foldl_append, List.foldl_cons, List.foldl_nil]
    by_cases h2 : p = 2
    · simp [h2]
    · by_cases h1 : p = 1
      · simp [h1]
      · by_cases h0 : p = 0
        · simp [h0]
        · simp [h0, h1, h2]

/-! ## The sequence runner -/

theorem free_run_pass_eq : free_run_pass = LED_COL_SEQUENCE := by decide

theorem free_run_colours_length (rounds : Nat) :
    (free_run_colours rounds).length = 8 * rounds := by
  induction rounds with
  | zero => rfl
  | succ n ih =>
    simp only [free_run_colours, List.length_append, ih, free_run_pass_eq]
    simp only [LED_COL_SEQUENCE, List.length_cons, List.length_nil]
    omega

theorem free_run_colours_get (rounds n : Nat) (h : n < 8 * rounds) :
    (free_run_colours rounds)[n]? = some (seqAt (n % 8)) := by
  induction rounds generalizing n with
  | zero => omega
  | succ m ih =>
    simp only [free_run_colours]
    by_cases hn : n < 8
    · rw [List.getElem?_append_left (by rw [free_run_pass_eq]; exact hn)]
      rw [Nat.mod_eq_of_lt hn, free_run_pass_eq]
      have : ∀ k, k < 8 → LED_COL_SEQUENCE[k]? = some (seqAt k) := by decide
      exact this n hn
    · have hlen : free_run_pass.length = 8 := by rw [free_run_pass_eq]; rfl
      rw [List.getElem?_append_right (by rw [hlen]; omega), hlen, ih (n - 8) (by omega)]
      congr 2
      omega

/-- C6: the sequence has exactly the 8 entries Red, Blue, Green, Blue,
Cyan, Magenta, Yellow, White; the first `rounds` passes of `free_run` hand
`8 * rounds` colours to `set_colour`, the `n`-th of them being
`LED_COL_SEQUENCE[n mod 8]`; so the colour at step `n + 8` is the colour at
step `n`, and after 8 steps the runner is back at Red. -/
theorem free_run_cyclic :
    LED_COL_SEQUENCE = [Red, Blue, Green, Blue, Cyan, Magenta, Yellow, White] ∧
      SEQUENCE_COUNT = 8 ∧
      (∀ rounds, (free_run_colours rounds).length = 8 * rounds) ∧
      (∀ rounds n, n < 8 * rounds →
        (free_run_colours rounds)[n]? = some (seqAt (n % 8)) ∧
        (free_run_colours (rounds + 1))[n + 8]? = (free_run_colours rounds)[n]?) ∧
      (∀ rounds, free_run rounds =
        Event.printf "Free running! Use CTRL+C to exit.\n" ::
          (free_run_colours rounds).flatMap fun c => set_colour c ++ [Event.usleep 500000]) ∧
      (free_run_colours 2)[8]? = some Red ∧
      (free_run_colours 2)[0]? = some Red := by
  refine ⟨rfl, rfl, free_run_colours_length, ?_, fun _ => rfl, by decide, by decide⟩
  intro rounds n h
  refine ⟨free_run_colours_get rounds n h, ?_⟩
  rw [free_run_colours_get rounds n h, free_run_colours_get (rounds + 1) (n + 8) (by omega),
    Nat.add_mod_right]

/-- C6 at a concrete step: the 11th colour of three passes is entry 3, Blue. -/
theorem free_run_cyclic_witness :
    11 < 8 * 3 ∧ (free_run_colours 3)[11]? = some (seqAt (11 % 8)) :=
  ⟨by decide, (free_run_cyclic.2.2.2.1 3 11 (by decide)).1⟩

/-! ## The software fade -/

theorem softPwmValues_append (a b : List Event) :
    softPwmValues (a ++ b) = softPwmValues a ++ softPwmValues b := by
  induction a with
  | nil => rfl
  | cons e t ih => cases e <;> simp [softPwmValues, ih]

namespace software_pwm

theorem fade_steps_final (r_o g_o b_o : Int) (n : Nat) (r g b : Int) :
    (fade_steps r_o g_o b_o n (r, g, b)).1 = (r + n * r_o, g + n * g_o, b + n * b_o) := by
  induction n generalizing r g b with
  | zero => simp [fade_steps]
  | succ m ih =>
    simp only [fade_steps, ih]
    push_cast
    refine Prod.ext ?_ (Prod.ext ?_ ?_) <;> simp <;> ring

theorem restDuty_step (a b ch : LedColours) (h : ch = Red ∨ ch = Green ∨ ch = Blue) :
    restDuty a ch + 100 * offset b a ch = restDuty b ch := by
  rcases h with h | h | h <;> subst h <;> cases a <;> cases b <;> decide

theorem offset_sign (a b ch : LedColours) (h : ch = Red ∨ ch = Green ∨ ch = Blue) :
    offset b a ch = Int.sign (channelBit b ch - channelBit a ch) ∧
      (offset b a ch = -1 ∨ offset b a ch = 0 ∨ offset b a ch = 1) := by
  rcases h with h | h | h <;> subst h <;> cases a <;> cases b <;> decide

theorem start_atRest : AtRest start := by
  refine ⟨by decide, by decide, by decide, by decide, by decide⟩

theorem transition_counters (s : Fade) :
    (transition s).1.r = s.r + 100 * offset (seqAt s.next) (seqAt s.last) Red ∧
    (transition s).1.g = s.g + 100 * offset (seqAt s.next) (seqAt s.last) Green ∧
    (transition s).1.b = s.b + 100 * offset (seqAt s.next) (seqAt s.last) Blue ∧
    (transition s).1.last = s.next ∧
    (transition s).1.next = (s.next + 1) % SEQUENCE_COUNT := by
  simp only [transition, fade_steps_final]
  simp [LED_STEPS]

theorem transition_atRest (s : Fade) (h : AtRest s) : AtRest (transition s).1 := by
  obtain ⟨hl, hn, hr, hg, hb⟩ := h
  obtain ⟨tr, tg, tb, tl, tn⟩ := transition_counters s
  refine ⟨?_, ?_, ?_, ?_, ?_⟩
  · rw [tl, hn]; exact Nat.mod_lt _ (by decide)
  · rw [tn, tl]
  · rw [tr, tl, hr]; exact restDuty_step _ _ _ (Or.inl rfl)
  · rw [tg, tl, hg]; exact restDuty_step _ _ _ (Or.inr (Or.inl rfl))
  · rw [tb, tl, hb]; exact restDuty_step _ _ _ (Or.inr (Or.inr rfl))

theorem restDuty_range (c ch : LedColours) : restDuty c ch = 0 ∨ restDuty c ch = 100 := by
  unfold restDuty
  split
  · right; rfl
  · left; rfl

theorem fade_steps_values (r_o g_o b_o : Int)
    (hro : r_o = -1 ∨ r_o = 0 ∨ r_o = 1) (hgo : g_o = -1 ∨ g_o = 0 ∨ g_o = 1)
    (hbo : b_o = -1 ∨ b_o = 0 ∨ b_o = 1) (n : Nat) (r g b : Int)
    (hr : 0 ≤ r ∧ r ≤ 100) (hg : 0 ≤ g ∧ g ≤ 100) (hb : 0 ≤ b ∧ b ≤ 100)
    (hr1 : 0 ≤ r + n * r_o ∧ r + n * r_o ≤ 100)
    (hg1 : 0 ≤ g + n * g_o ∧ g + n * g_o ≤ 100)
    (hb1 : 0 ≤ b + n * b_o ∧ b + n * b_o ≤ 100) :
    ∀ pv ∈ softPwmValues (fade_steps r_o g_o b_o n (r, g, b)).2, 0 ≤ pv.2 ∧ pv.2 ≤ 100 := by
  induction n generalizing r g b with
  | zero => simp [fade_steps, softPwmValues]
  | succ m ih =>
    intro pv hpv
    simp only [fade_steps, List.cons_append, List.nil_append, softPwmValues,
      List.mem_cons] at hpv
    push_cast at hr1 hg1 hb1
    have hr2 : 0 ≤ r + r_o ∧ r + r_o ≤ 100 := by
      rcases hro with h | h | h <;> subst h <;> omega
    have hg2 : 0 ≤ g + g_o ∧ g + g_o ≤ 100 := by
      rcases hgo with h | h | h <;> subst h <;> omega
    have hb2 : 0 ≤ b + b_o ∧ b + b_o ≤ 100 := by
      rcases hbo with h | h | h <;> subst h <;> omega
    rcases hpv with h | h | h | h
    · subst h; exact hr2
    · subst h; exact hg2
    · subst h; exact hb2
    · refine ih (r + r_o) (g + g_o) (b + b_o) hr2 hg2 hb2 ?_ ?_ ?_ pv h
      · constructor <;> nlinarith [hr1.1, hr1.2]
      · constructor <;> nlinarith [hg1.1, hg1.2]
      · constructor <;> nlinarith [hb1.1, hb1.2]

theorem fade_steps_count (r_o g_o b_o : Int) (n : Nat) (rgb : Int × Int × Int) :
    (softPwmValues (fade_steps r_o g_o b_o n rgb).2).length = 3 * n := by
  induction n generalizing rgb with
  | zero => simp [fade_steps, softPwmValues]
  | succ m ih =>
    obtain ⟨r, g, b⟩ := rgb
    have h := ih (r + r_o, g + g_o, b + b_o)
    simp only [fade_steps, List.cons_append, List.nil_append, softPwmValues, List.length_cons]
    change (softPwmValues (fade_steps r_o g_o b_o m (r + r_o, g + g_o, b + b_o)).2).length
      + 1 + 1 + 1 = 3 * (m + 1)
    omega

theorem transition_values (s : Fade) (h : AtRest s) :
    ∀ pv ∈ softPwmValues (transition s).2, 0 ≤ pv.2 ∧ pv.2 ≤ 100 := by
  obtain ⟨_, _, hr, hg, hb⟩ := h
  have sr := restDuty_step (seqAt s.last) (seqAt s.next) Red (Or.inl rfl)
  have sg := restDuty_step (seqAt s.last) (seqAt s.next) Green (Or.inr (Or.inl rfl))
  have sb := restDuty_step (seqAt s.last) (seqAt s.next) Blue (Or.inr (Or.inr rfl))
  have r0 := restDuty_range (seqAt s.last) Red
  have g0 := restDuty_range (seqAt s.last) Green
  have b0 := restDuty_range (seqAt s.last) Blue
  have r1 := restDuty_range (seqAt s.next) Red
  have g1 := restDuty_range (seqAt s.next) Green
  have b1 := restDuty_range (seqAt s.next) Blue
  rw [← hr] at sr r0
  rw [← hg] at sg g0
  rw [← hb] at sb b0
  have key := fade_steps_values (offset (seqAt s.next) (seqAt s.last) Red)
    (offset (seqAt s.next) (seqAt s.last) Green) (offset (seqAt s.next) (seqAt s.last) Blue)
    (offset_sign _ _ Red (Or.inl rfl)).2 (offset_sign _ _ Green (Or.inr (Or.inl rfl))).2
    (offset_sign _ _ Blue (Or.inr (Or.inr rfl))).2 100 s.r s.g s.b
    (by omega) (by omega) (by omega)
    (by push_cast; omega) (by push_cast; omega) (by push_cast; omega)
  exact key

theorem transition_count (s : Fade) : (softPwmValues (transition s).2).length = 300 := by
  simp only [transition, fade_steps_count]
  rfl

theorem fade_passes_values (rounds : Nat) (s : Fade) (h : AtRest s) :
    AtRest (passes rounds s).1 ∧
      ∀ pv ∈ softPwmValues (passes rounds s).2, 0 ≤ pv.2 ∧ pv.2 ≤ 100 := by
  induction rounds generalizing s with
  | zero => exact ⟨h, by simp [passes, softPwmValues]⟩
  | succ n ih =>
    obtain ⟨h1, h2⟩ := ih (transition s).1 (transition_atRest s h)
    refine ⟨h1, ?_⟩
    intro pv hpv
    simp only [passes, softPwmValues_append, List.mem_append] at hpv
    rcases hpv with hpv | hpv
    · exact transition_values s h pv hpv
    · exact h2 pv hpv

theorem fade_passes_count (rounds : Nat) (s : Fade) :
    (softPwmValues (passes rounds s).2).length = 300 * rounds := by
  induction rounds generalizing s with
  | zero => rfl
  | succ n ih =>
    simp only [passes, softPwmValues_append, List.length_append, transition_count, ih]
    omega

end software_pwm

/-- C4: for every index `k` in 0..7, with `last = k` and
`next = (k + 1) mod 8`: if at the start of the transition each duty counter
is 100 when its channel's bit is set in `LED_COL_SEQUENCE[last]` and 0
otherwise, then after the 100 iterations of the inner loop each counter is
100 when its channel's bit is set in `LED_COL_SEQUENCE[next]` and 0
otherwise, and these are the counters the next transition starts from.  The
counters before the first transition satisfy the hypothesis for `last = 0`. -/
theorem software_pwm_exact_at_boundaries (k : Nat) (_hk : k < 8) (s : software_pwm.Fade)
    (hl : s.last = k) (hn : s.next = (k + 1) % 8)
    (hr : s.r = restDuty (seqAt k) Red) (hg : s.g = restDuty (seqAt k) Green)
    (hb : s.b = restDuty (seqAt k) Blue) :
    (software_pwm.fade_steps
        (software_pwm.offset (seqAt s.next) (seqAt s.last) Red)
        (software_pwm.offset (seqAt s.next) (seqAt s.last) Green)
        (software_pwm.offset (seqAt s.next) (seqAt s.last) Blue)
        100 (s.r, s.g, s.b)).1 =
        (restDuty (seqAt ((k + 1) % 8)) Red, restDuty (seqAt ((k + 1) % 8)) Green,
          restDuty (seqAt ((k + 1) % 8)) Blue) ∧
      (software_pwm.transition s).1 =
        { last := (k + 1) % 8, next := ((k + 1) % 8 + 1) % 8,
          r := restDuty (seqAt ((k + 1) % 8)) Red,
          g := restDuty (seqAt ((k + 1) % 8)) Green,
          b := restDuty (seqAt ((k + 1) % 8)) Blue } ∧
      software_pwm.start =
        { last := 0, next := 1, r := restDuty (seqAt 0) Red, g := restDuty (seqAt 0) Green,
          b := restDuty (seqAt 0) Blue } ∧
      (∀ c, restDuty c Red = (if hasChannel c 0 then 100 else 0) ∧
        restDuty c Green = (if hasChannel c 1 then 100 else 0) ∧
        restDuty c Blue = (if hasChannel c 2 then 100 else 0)) := by
  have sr := software_pwm.restDuty_step (seqAt s.last) (seqAt s.next) Red (Or.inl rfl)
  have sg := software_pwm.restDuty_step (seqAt s.last) (seqAt s.next) Green (Or.inr (Or.inl rfl))
  have sb := software_pwm.restDuty_step (seqAt s.last) (seqAt s.next) Blue (Or.inr (Or.inr rfl))
  rw [hl, ← hr, hn] at sr
  rw [hl, ← hg, hn] at sg
  rw [hl, ← hb, hn] at sb
  have hfinal := software_pwm.fade_steps_final
    (software_pwm.offset (seqAt s.next) (seqAt s.last) Red)
    (software_pwm.offset (seqAt s.next) (seqAt s.last) Green)
    (software_pwm.offset (seqAt s.next) (seqAt s.last) Blue) 100 s.r s.g s.b
  rw [hl, hn] at hfinal
  push_cast at hfinal
  rw [sr, sg, sb] at hfinal
  refine ⟨by rw [hl, hn]; exact hfinal, ?_, by decide, ?_⟩
  · have hsteps : software_pwm.LED_STEPS.toNat = 100 := rfl
    simp only [software_pwm.transition, hsteps]
    rw [hl, hn, hfinal]
    rfl
  · intro c
    cases c <;> decide

/-- C4 at a concrete transition: from Blue (entry 3) to Cyan (entry 4) the
counters go from (0, 0, 100) to (0, 100, 100). -/
theorem software_pwm_exact_at_boundaries_witness :
    (software_pwm.transition { last := 3, next := 4, r := 0, g := 0, b := 100 }).1 =
      { last := 4, next := 5, r := 0, g := 100, b := 100 } :=
  (software_pwm_exact_at_boundaries 3 (by decide)
    { last := 3, next := 4, r := 0, g := 0, b := 100 } rfl rfl (by decide) (by decide)
    (by decide)).2.1

/-- C8: every duty value that `software_pwm` hands to `softPwmWrite`, on
every channel, in every pass of its endless loop and at each of the 100
inner steps (300 values per pass), lies in [0, 100] = [0, LED_STEPS],
although nothing clamps the counters; and each per-step offset, for any
pair of colours, is -1, 0 or +1 and equals the sign of (channel bit in
next) - (channel bit in last). -/
theorem software_pwm_duty_in_range :
    (∀ rounds, (softPwmValues (software_pwm rounds)).length = 300 * rounds) ∧
      (∀ rounds, ∀ pv ∈ softPwmValues (software_pwm rounds),
        0 ≤ pv.2 ∧ pv.2 ≤ software_pwm.LED_STEPS) ∧
      (∀ last next ch, ch ∈ [Red, Green, Blue] →
        software_pwm.offset next last ch = Int.sign (channelBit next ch - channelBit last ch) ∧
          (software_pwm.offset next last ch = -1 ∨ software_pwm.offset next last ch = 0 ∨
            software_pwm.offset next last ch = 1)) := by
  refine ⟨?_, ?_, ?_⟩
  · intro rounds
    simp only [software_pwm, softPwmValues_append, List.length_append,
      software_pwm.fade_passes_count]
    simp [softPwmValues]
  · intro rounds pv hpv
    simp only [software_pwm, softPwmValues_append, List.mem_append] at hpv
    rcases hpv with hpv | hpv
    · simp [softPwmValues] at hpv
    · exact (software_pwm.fade_passes_values rounds _ software_pwm.start_atRest).2 pv hpv
  · intro last next ch hch
    simp only [List.mem_cons, List.mem_singleton, List.not_mem_nil, or_false] at hch
    exact software_pwm.offset_sign last next ch hch

/-- C8 at a concrete place: the offset of the blue channel from Blue to
Green is -1, the sign of 0 - 1. -/
theorem software_pwm_duty_in_range_witness :
    software_pwm.offset Green Blue Blue = Int.sign (channelBit Green Blue - channelBit Blue Blue) ∧
      (software_pwm.offset Green Blue Blue = -1 ∨ software_pwm.offset Green Blue Blue = 0 ∨
        software_pwm.offset Green Blue Blue = 1) :=
  software_pwm_duty_in_range.2.2 Blue Green Blue (by decide)

end LedDemo

namespace LedSelect

open WiringPi

/-! ## The single-shot selector -/

theorem check_arguments_cases (file : String) (argv : List String) :
    (argv[1]? = some "red" ∧ check_arguments file argv =
        (0, [Event.printf "Turning the red LED on.\n"])) ∨
    (argv[1]? = some "green" ∧ check_arguments file argv =
        (1, [Event.printf "Turning the green LED on.\n"])) ∨
    (argv[1]? = some "blue" ∧ check_arguments file argv =
        (2, [Event.printf "Turning the blue LED on.\n"])) ∨
    (badArgument argv ∧ 2 ≤ argv.length ∧ check_arguments file argv = (-1, [])) ∨
    (badArgument argv ∧ argv.length < 2 ∧ check_arguments file argv =
        (-1, [Event.printf ("Usage: ./" ++ file ++ " <colour> \x7bred|green|blue\x7d\n")])) := by
  match argv with
  | [] => right; right; right; right; simp [badArgument, check_arguments]
  | [_] => right; right; right; right; simp [badArgument, check_arguments]
  | _ :: arg :: rest =>
    by_cases h1 : arg = "red"
    · left; subst h1; simp [check_arguments, RED_GPIO]
    · by_cases h2 : arg = "green"
      · right; left; subst h2; simp [check_arguments, GRN_GPIO]
      · by_cases h3 : arg = "blue"
        · right; right; left; subst h3; simp [check_arguments, BLU_GPIO]
        · right; right; right; left
          simp [badArgument, check_arguments, h1, h2, h3]

theorem lineValue_of_bad (argv : List String) (h : badArgument argv) :
    lineValue argv "red" = 0 ∧ lineValue argv "green" = 0 ∧ lineValue argv "blue" = 0 := by
  obtain ⟨h1, h2, h3⟩ := h
  simp [lineValue, h1, h2, h3]

theorem main_digitalWrites (file : String) (argv : List String) :
    digitalWrites (main file argv).2 =
      [(0, lineValue argv "red"), (1, lineValue argv "green"), (2, lineValue argv "blue")] := by
  rcases check_arguments_cases file argv with h | h | h | h | h
  · obtain ⟨ha, hc⟩ := h
    simp only [main, hc, lineValue, ha]
    decide
  · obtain ⟨ha, hc⟩ := h
    simp only [main, hc, lineValue, ha]
    decide
  · obtain ⟨ha, hc⟩ := h
    simp only [main, hc, lineValue, ha]
    decide
  · obtain ⟨hb, _, hc⟩ := h
    obtain ⟨l1, l2, l3⟩ := lineValue_of_bad argv hb
    simp only [main, hc, l1, l2, l3]
    decide
  · obtain ⟨hb, _, hc⟩ := h
    obtain ⟨l1, l2, l3⟩ := lineValue_of_bad argv hb
    simp only [main, hc, l1, l2, l3]
    rfl

theorem main_printed (file : String) (argv : List String) (h : badArgument argv) :
    printed (main file argv).2 =
      if argv.length < 2 then ["Usage: ./" ++ file ++ " <colour> \x7bred|green|blue\x7d\n"]
      else [] := by
  obtain ⟨h1, h2, h3⟩ := h
  rcases check_arguments_cases file argv with h | h | h | h | h
  · exact absurd h.1 h1
  · exact absurd h.1 h2
  · exact absurd h.1 h3
  · obtain ⟨_, hl, hc⟩ := h
    have : ¬ argv.length < 2 := by omega
    simp only [main, hc, this, if_false]
    rfl
  · obtain ⟨_, hl, hc⟩ := h
    simp only [main, hc, hl, if_true]
    rfl

theorem runPins_eq_writes (pins : Pins) (trace : List Event) :
    runPins pins trace =
      (digitalWrites trace).foldl
        (fun ps w => fun p => if p = w.1 then decide (w.2 ≠ 0) else ps p) pins := by
  induction trace generalizing pins with
  | nil => rfl
  | cons e t ih =>
    cases e <;> simp only [runPins, List.foldl_cons, digitalWrites, applyEvent] <;>
      exact ih _

theorem runPins_of_digitalWrites (pins : Pins) (trace : List Event) (a b c : Int)
    (h : digitalWrites trace = [(0, a), (1, b), (2, c)]) :
    runPins pins trace 0 = decide (a ≠ 0) ∧ runPins pins trace 1 = decide (b ≠ 0) ∧
      runPins pins trace 2 = decide (c ≠ 0) := by
  rw [runPins_eq_writes, h]
  simp

/-- C3: for every argument vector, the selector writes each of the three
lines (red 0, green 1, blue 2) exactly once, the value being 1 (on) exactly
when a first argument is present and is exactly that line's name, else 0;
the lines end at those levels; arguments after the first change nothing;
with "green" only green is on, with no argument or "purple" all are off. -/
theorem main_writes_selected (file : String) :
    (∀ argv, digitalWrites (main file argv).2 =
        [(0, lineValue argv "red"), (1, lineValue argv "green"), (2, lineValue argv "blue")]) ∧
      (∀ argv pins,
        runPins pins (main file argv).2 0 = decide (argv[1]? = some "red") ∧
        runPins pins (main file argv).2 1 = decide (argv[1]? = some "green") ∧
        runPins pins (main file argv).2 2 = decide (argv[1]? = some "blue")) ∧
      (∀ prog arg rest, main file (prog :: arg :: rest) = main file [prog, arg]) ∧
      digitalWrites (main file ["./led_select", "green"]).2 = [(0, 0), (1, 1), (2, 0)] ∧
      digitalWrites (main file ["./led_select"]).2 = [(0, 0), (1, 0), (2, 0)] ∧
      digitalWrites (main file ["./led_select", "purple"]).2 = [(0, 0), (1, 0), (2, 0)] ∧
      digitalWrites (main file ["./led_select", "Green"]).2 = [(0, 0), (1, 0), (2, 0)] := by
  refine ⟨main_digitalWrites file, ?_, ?_, ?_, ?_, ?_, ?_⟩
  · intro argv pins
    have h := runPins_of_digitalWrites pins _ _ _ _ (main_digitalWrites file argv)
    simp only [lineValue] at h
    refine ⟨?_, ?_, ?_⟩
    · rw [h.1]; by_cases c : argv[1]? = some "red" <;> simp [c]
    · rw [h.2.1]; by_cases c : argv[1]? = some "green" <;> simp [c]
    · rw [h.2.2]; by_cases c : argv[1]? = some "blue" <;> simp [c]
  · intro prog arg rest
    simp [main, check_arguments]
  · rw [main_digitalWrites]; decide
  · rw [main_digitalWrites]; decide
  · rw [main_digitalWrites]; decide
  · rw [main_digitalWrites]; decide

/-- C7 fails as stated: with the unrecognised argument "purple" the
selector prints nothing at all, so no usage hint reaches standard output. -/
theorem main_purple_prints_nothing :
    badArgument ["./led_select", "purple"] ∧
      printed (main "led_select.c" ["./led_select", "purple"]).2 = [] := by
  refine ⟨by unfold badArgument; decide, ?_⟩
  rw [main_printed _ _ (by unfold badArgument; decide)]
  decide

/-- C7, amended: when the colour argument is missing or is not exactly
"red", "green" or "blue", the selector writes all three lines off, leaves
them off, and returns exit status 0; the usage hint is printed exactly when
the argument is missing, and nothing is printed when an argument is present
but unrecognised. -/
theorem main_bad_argument (file : String) (argv : List String) (h : badArgument argv) :
    digitalWrites (main file argv).2 = [(0, 0), (1, 0), (2, 0)] ∧
      (∀ pins, runPins pins (main file argv).2 0 = false ∧
        runPins pins (main file argv).2 1 = false ∧
        runPins pins (main file argv).2 2 = false) ∧
      (main file argv).1 = 0 ∧
      (argv.length < 2 →
        printed (main file argv).2 =
          ["Usage: ./" ++ file ++ " <colour> \x7bred|green|blue\x7d\n"]) ∧
      (2 ≤ argv.length → printed (main file argv).2 = []) := by
  obtain ⟨l1, l2, l3⟩ := lineValue_of_bad argv h
  have hw : digitalWrites (main file argv).2 = [(0, 0), (1, 0), (2, 0)] := by
    rw [main_digitalWrites, l1, l2, l3]
  refine ⟨hw, ?_, rfl, ?_, ?_⟩
  · intro pins
    have := runPins_of_digitalWrites pins _ _ _ _ hw
    simpa using this
  · intro hlen
    rw [main_printed file argv h, if_pos hlen]
  · intro hlen
    rw [main_printed file argv h, if_neg (by omega)]

/-- C7, amended, with no argument at all: the three lines are written off,
the usage hint is printed and the status is 0. -/
theorem main_bad_argument_witness :
    badArgument ["./led_select"] ∧
      digitalWrites (main "led_select.c" ["./led_select"]).2 = [(0, 0), (1, 0), (2, 0)] ∧
      (main "led_select.c" ["./led_select"]).1 = 0 ∧
      printed (main "led_select.c" ["./led_select"]).2 =
        ["Usage: ./led_select.c <colour> \x7bred|green|blue\x7d\n"] :=
  have hb : badArgument ["./led_select"] := by unfold badArgument; decide
  have h := main_bad_argument "led_select.c" ["./led_select"] hb
  ⟨hb, h.1, h.2.2.1, h.2.2.2.1 (by decide)⟩

end LedSelect

namespace LedDemo

open WiringPi LedColours

/-! ## The interactive command loop -/

theorem switch_value (cs : Bool) (b : Fin 256) (l : Char)
    (hl : l ∈ ['R', 'G', 'B', 'C', 'M', 'Y', 'W', 'X', 'F', 'P', 'S', '\n']) :
    (static_cast_char cs (toupper (b.val : Int)) = (l.toNat : Int)) ↔
      (Char.ofNat b.val).toUpper = l := by
  revert cs b l
  decide!

theorem eof_value (cs : Bool) (l : Char)
    (hl : l ∈ ['R', 'G', 'B', 'C', 'M', 'Y', 'W', 'X', 'F', 'P', 'S', '\n']) :
    static_cast_char cs (toupper EOF) ≠ (l.toNat : Int) := by
  revert cs l
  decide!

theorem not_driver_letter (b : Fin 256) (hb : isLetter b ['F', 'P', 'S', 'X'] = false) :
    (Char.ofNat b.val).toUpper ≠ 'F' ∧ (Char.ofNat b.val).toUpper ≠ 'P' ∧
      (Char.ofNat b.val).toUpper ≠ 'S' ∧ (Char.ofNat b.val).toUpper ≠ 'X' := by
  revert b
  decide!

theorem exit_letter (b : Fin 256) (hb : isLetter b ['X'] = true) :
    (Char.ofNat b.val).toUpper = 'X' := by
  revert b
  decide!

theorem loop_body_command (cs : Bool) (s : LoopState) (b : Fin 256) (rest : List (Fin 256))
    (hin : s.input = b :: rest) (hb : isLetter b ['F', 'P', 'S', 'X'] = false) :
    loop_body cs s = { s with input := rest, trace := s.trace ++ commandTrace [b] } := by
  obtain ⟨hF, hP, hS, hX⟩ := not_driver_letter b hb
  simp only [loop_body, hin, getchar,
    switch_value cs b 'R' (by decide), switch_value cs b 'G' (by decide),
    switch_value cs b 'B' (by decide), switch_value cs b 'C' (by decide),
    switch_value cs b 'M' (by decide), switch_value cs b 'Y' (by decide),
    switch_value cs b 'W' (by decide), switch_value cs b 'X' (by decide),
    switch_value cs b 'F' (by decide), switch_value cs b 'P' (by decide),
    switch_value cs b 'S' (by decide), switch_value cs b '\n' (by decide),
    hF, hP, hS, hX, if_false, commandTrace, commandColour, List.flatMap_cons, List.flatMap_nil,
    List.append_nil]
  split_ifs <;> simp

theorem loop_body_exit (cs : Bool) (s : LoopState) (b : Fin 256) (rest : List (Fin 256))
    (hin : s.input = b :: rest) (hb : isLetter b ['X'] = true) :
    loop_body cs s = { s with input := rest, running := false } := by
  have hX := exit_letter b hb
  simp only [loop_body, hin, getchar,
    switch_value cs b 'R' (by decide), switch_value cs b 'G' (by decide),
    switch_value cs b 'B' (by decide), switch_value cs b 'C' (by decide),
    switch_value cs b 'M' (by decide), switch_value cs b 'Y' (by decide),
    switch_value cs b 'W' (by decide), switch_value cs b 'X' (by decide), hX]
  simp

theorem loop_body_eof (cs : Bool) (s : LoopState) (hin : s.input = []) :
    loop_body cs s = { s with trace := s.trace ++ set_colour Off } := by
  have e := eof_value cs
  simp only [loop_body, hin, getchar,
    e 'R' (by decide), e 'G' (by decide), e 'B' (by decide), e 'C' (by decide),
    e 'M' (by decide), e 'Y' (by decide), e 'W' (by decide), e 'X' (by decide),
    e 'F' (by decide), e 'P' (by decide), e 'S' (by decide), e '\n' (by decide), if_false]

theorem commandTrace_cons (b : Fin 256) (t : List (Fin 256)) :
    commandTrace (b :: t) = commandTrace [b] ++ commandTrace t := by
  simp [commandTrace]

theorem main_loop_consume (cs : Bool) (pre : List (Fin 256))
    (hpre : ∀ b ∈ pre, isLetter b ['F', 'P', 'S', 'X'] = false)
    (rest : List (Fin 256)) (trace : List Event) (fuel : Nat) :
    main_loop cs (pre.length + fuel)
        { input := pre ++ rest, running := true, entered := none, trace := trace } =
      main_loop cs fuel
        { input := rest, running := true, entered := none,
          trace := trace ++ commandTrace pre } := by
  induction pre generalizing trace with
  | nil => simp [commandTrace]
  | cons b t ih =>
    have hb := hpre b (List.mem_cons_self b t)
    have ht : ∀ c ∈ t, isLetter c ['F', 'P', 'S', 'X'] = false :=
      fun c hc => hpre c (List.mem_cons_of_mem b hc)
    have hlen : (b :: t).length + fuel = (t.length + fuel) + 1 := by
      simp only [List.length_cons]; omega
    rw [hlen, main_loop]
    simp only [if_true]
    rw [loop_body_command cs _ b (t ++ rest) rfl hb, ih ht, commandTrace_cons b t,
      List.append_assoc]

theorem main_loop_stopped (cs : Bool) (fuel : Nat) (s : LoopState)
    (hr : s.running = false) (he : s.entered = none) : main_loop cs fuel s = s := by
  cases fuel with
  | zero => rfl
  | succ n => simp [main_loop, hr, he]

theorem main_loop_eof (cs : Bool) (k : Nat) (trace : List Event) :
    main_loop cs k { input := [], running := true, entered := none, trace := trace } =
      { input := [], running := true, entered := none,
        trace := trace ++ (List.replicate k Off).flatMap set_colour } := by
  induction k generalizing trace with
  | zero => simp [main_loop]
  | succ n ih =>
    rw [main_loop]
    simp only [if_true]
    rw [loop_body_eof cs _ rfl, ih]
    simp [List.replicate_succ]

/-- C2: for every input whose bytes before the first X or x hold no F, P, S
or X in either case, and whatever follows that X, `main` returns exit
status 0 once given enough rounds; the calls it makes are the prologue, then
for each byte before the X, in order, the call of `set_colour` the transition
table gives for its upper-cased value (nothing for a newline, `Off` for any
byte outside the table), then the farewell: nothing is written for the X or
for any later byte.  On "R\nX\n" Red is set once and the status is 0. -/
theorem main_interactive (cs : Bool) :
    (∀ (pre post : List (Fin 256)) (x : Fin 256) (fuel : Nat),
        isLetter x ['X'] = true →
        (∀ b ∈ pre, isLetter b ['F', 'P', 'S', 'X'] = false) →
        pre.length + 1 ≤ fuel →
        main cs fuel (pre ++ x :: post) =
          (some 0, main_prologue ++ commandTrace pre ++ [Event.printf "Exiting.\n"])) ∧
      (∀ fuel, 3 ≤ fuel →
        main cs fuel (bytesOf "R\nX\n") =
          (some 0, main_prologue ++ set_colour Red ++ [Event.printf "Exiting.\n"])) ∧
      (∀ b : Fin 256,
        (commandColour b = some Red ↔ b.val = 'R'.toNat ∨ b.val = 'r'.toNat) ∧
        (commandColour b = some Green ↔ b.val = 'G'.toNat ∨ b.val = 'g'.toNat) ∧
        (commandColour b = some Blue ↔ b.val = 'B'.toNat ∨ b.val = 'b'.toNat) ∧
        (commandColour b = some Cyan ↔ b.val = 'C'.toNat ∨ b.val = 'c'.toNat) ∧
        (commandColour b = some Magenta ↔ b.val = 'M'.toNat ∨ b.val = 'm'.toNat) ∧
        (commandColour b = some Yellow ↔ b.val = 'Y'.toNat ∨ b.val = 'y'.toNat) ∧
        (commandColour b = some White ↔ b.val = 'W'.toNat ∨ b.val = 'w'.toNat) ∧
        (commandColour b = none ↔ b.val = '\n'.toNat)) := by
  have general : ∀ (pre post : List (Fin 256)) (x : Fin 256) (fuel : Nat),
      isLetter x ['X'] = true →
      (∀ b ∈ pre, isLetter b ['F', 'P', 'S', 'X'] = false) →
      pre.length + 1 ≤ fuel →
      main cs fuel (pre ++ x :: post) =
        (some 0, main_prologue ++ commandTrace pre ++ [Event.printf "Exiting.\n"]) := by
    intro pre post x fuel hx hpre hfuel
    obtain ⟨k, rfl⟩ : ∃ k, fuel = pre.length + (k + 1) := ⟨fuel - pre.length - 1, by omega⟩
    simp only [main, main_entry]
    rw [main_loop_consume cs pre hpre, main_loop]
    simp only [if_true]
    rw [loop_body_exit cs _ x post rfl hx, main_loop_stopped cs k _ rfl rfl]
    rfl
  refine ⟨general, ?_, by decide!⟩
  intro fuel hfuel
  have h := general (bytesOf "R\n") (bytesOf "\n") (bytesOf "X").head! fuel (by decide!)
    (by decide!) (by simpa [bytesOf] using hfuel)
  have e1 : bytesOf "R\n" ++ (bytesOf "X").head! :: bytesOf "\n" = bytesOf "R\nX\n" := by
    decide!
  have e2 : commandTrace (bytesOf "R\n") = set_colour Red := by decide!
  rw [e1, e2] at h
  exact h

/-- C2 on the input "gX!": Green is set once, the status is 0 and nothing
is written for the X or for the byte after it. -/
theorem main_interactive_witness :
    main true 2 (bytesOf "g" ++ (bytesOf "X").head! :: bytesOf "!") =
      (some 0, main_prologue ++ commandTrace (bytesOf "g") ++ [Event.printf "Exiting.\n"]) :=
  (main_interactive true).1 (bytesOf "g") (bytesOf "!") (bytesOf "X").head! 2 (by decide!)
    (by decide!) (by decide!)

/-- C10: when standard input is exhausted, a pass of the loop takes the
default branch: it calls `set_colour(Off)` and changes nothing else, so
`running` stays true.  Hence for every finite input holding no X, F, P or S
in either case, the loop is still running after any number of rounds: once
the input has been handled, each further round calls `set_colour(Off)` again,
and `main` never returns. -/
theorem main_never_exits_at_eof (cs : Bool) :
    (∀ s : LoopState, s.input = [] →
        loop_body cs s = { s with trace := s.trace ++ set_colour Off }) ∧
      (∀ input : List (Fin 256), (∀ b ∈ input, isLetter b ['F', 'P', 'S', 'X'] = false) →
        (∀ k, main_loop cs (input.length + k) (main_entry input) =
          { input := [], running := true, entered := none,
            trace := main_prologue ++ commandTrace input ++
              (List.replicate k Off).flatMap set_colour }) ∧
        (∀ fuel, (main_loop cs fuel (main_entry input)).running = true) ∧
        (∀ fuel, (main cs fuel input).1 = none)) := by
  refine ⟨fun s hs => loop_body_eof cs s hs, ?_⟩
  intro input hin
  have h1 : ∀ k, main_loop cs (input.length + k) (main_entry input) =
      { input := [], running := true, entered := none,
        trace := main_prologue ++ commandTrace input ++
          (List.replicate k Off).flatMap set_colour } := by
    intro k
    have := main_loop_consume cs input hin [] main_prologue k
    rw [List.append_nil] at this
    rw [main_entry, this, main_loop_eof]
  have h2 : ∀ fuel, (main_loop cs fuel (main_entry input)).running = true := by
    intro fuel
    by_cases hf : input.length ≤ fuel
    · obtain ⟨k, rfl⟩ : ∃ k, fuel = input.length + k := ⟨fuel - input.length, by omega⟩
      rw [h1 k]
    · have hsplit : input = input.take fuel ++ input.drop fuel := (List.take_append_drop _ _).symm
      have hlen : (input.take fuel).length = fuel := by
        rw [List.length_take]; omega
      have := main_loop_consume cs (input.take fuel)
        (fun b hb => hin b (List.mem_of_mem_take hb)) (input.drop fuel) main_prologue 0
      rw [← hsplit, hlen, Nat.add_zero] at this
      rw [main_entry, this]
      rfl
  refine ⟨h1, h2, ?_⟩
  intro fuel
  simp only [main, h2 fuel]
  rfl

/-- C10 on the input "r\n": after the two bytes, three more rounds call
`set_colour(Off)` three times and the loop is still running. -/
theorem main_never_exits_at_eof_witness :
    main_loop false ((bytesOf "r\n").length + 3) (main_entry (bytesOf "r\n")) =
      { input := [], running := true, entered := none,
        trace := main_prologue ++ commandTrace (bytesOf "r\n") ++
          (List.replicate 3 Off).flatMap set_colour } :=
  ((main_never_exits_at_eof false).2 (bytesOf "r\n") (by decide!)).1 3

/-! ## The hardware fade -/

theorem irootBits_spec (k N : Nat) (b acc : Nat)
    (hlo : acc ^ k ≤ N) (hhi : N < (acc + 2 ^ b) ^ k) :
    irootBits k N b acc ^ k ≤ N ∧ N < (irootBits k N b acc + 1) ^ k := by
  induction b generalizing acc with
  | zero => simpa [irootBits] using And.intro hlo hhi
  | succ n ih =>
    simp only [irootBits]
    by_cases h : (acc + 2 ^ n) ^ k ≤ N
    · rw [if_pos h]
      refine ih _ h ?_
      have : acc + 2 ^ n + 2 ^ n = acc + 2 ^ (n + 1) := by rw [pow_succ]; omega
      rw [this]; exact hhi
    · rw [if_neg h]
      exact ih _ hlo (by omega)

theorem floorPow2_bounds (x : Frac) (hd : 0 < x.den) :
    ∃ p q : Nat, 0 < q ∧ p * x.den = x.num * q ∧
      floorPow2 x ^ q ≤ 2 ^ p ∧ 2 ^ p < (floorPow2 x + 1) ^ q := by
  have hg : 0 < Nat.gcd x.num x.den := Nat.gcd_pos_of_pos_right _ hd
  have hq : 0 < x.den / Nat.gcd x.num x.den :=
    Nat.div_pos (Nat.le_of_dvd hd (Nat.gcd_dvd_right _ _)) hg
  have hp : x.num / Nat.gcd x.num x.den * Nat.gcd x.num x.den = x.num :=
    Nat.div_mul_cancel (Nat.gcd_dvd_left _ _)
  have hq' : x.den / Nat.gcd x.num x.den * Nat.gcd x.num x.den = x.den :=
    Nat.div_mul_cancel (Nat.gcd_dvd_right _ _)
  refine ⟨x.num / Nat.gcd x.num x.den, x.den / Nat.gcd x.num x.den, hq, ?_, ?_⟩
  · have key : ∀ g p q n d : Nat, p * g = n → q * g = d → p * d = n * q := by
      intro g p q n d h1 h2
      subst h1 h2
      ring
    exact key _ _ _ _ _ hp hq'
  · unfold floorPow2
    refine irootBits_spec _ _ _ 0 ?_ ?_
    · rw [Nat.zero_pow hq]; exact Nat.zero_le _
    · rw [Nat.zero_add, ← pow_mul]
      apply Nat.pow_lt_pow_right (by decide)
      have h1 : x.num < (x.num / x.den + 1) * x.den := by
        have := Nat.div_add_mod x.num x.den
        have := Nat.mod_lt x.num hd
        nlinarith
      have h2 : x.num / Nat.gcd x.num x.den * Nat.gcd x.num x.den <
          (x.num / x.den + 1) * (x.den / Nat.gcd x.num x.den) * Nat.gcd x.num x.den := by
        rw [hp, mul_assoc, hq']; exact h1
      exact Nat.lt_of_mul_lt_mul_right h2

theorem two_rpow_div (p q : Nat) :
    ((2 : ℝ) ^ p) ^ ((q : ℝ)⁻¹) = (2 : ℝ) ^ ((p : ℝ) / q) := by
  rw [← Real.rpow_natCast, ← Real.rpow_mul (by norm_num), div_eq_mul_inv]

theorem le_two_rpow_of_pow_le (n p q : Nat) (hq : 0 < q) (h : n ^ q ≤ 2 ^ p) :
    (n : ℝ) ≤ (2 : ℝ) ^ ((p : ℝ) / q) := by
  have h1 : ((n : ℝ) ^ q) ^ ((q : ℝ)⁻¹) = n :=
    Real.pow_rpow_inv_natCast (Nat.cast_nonneg n) (by omega)
  have h2 : ((n : ℝ) ^ q) ≤ (2 : ℝ) ^ p := by exact_mod_cast h
  rw [← h1, ← two_rpow_div p q]
  exact Real.rpow_le_rpow (by positivity) h2 (by positivity)

theorem two_rpow_lt_of_lt_pow (n p q : Nat) (hq : 0 < q) (h : 2 ^ p < n ^ q) :
    (2 : ℝ) ^ ((p : ℝ) / q) < (n : ℝ) := by
  have h1 : ((n : ℝ) ^ q) ^ ((q : ℝ)⁻¹) = n :=
    Real.pow_rpow_inv_natCast (Nat.cast_nonneg n) (by omega)
  have h2 : (2 : ℝ) ^ p < ((n : ℝ) ^ q) := by exact_mod_cast h
  rw [← h1, ← two_rpow_div p q]
  exact Real.rpow_lt_rpow (by positivity) h2 (by positivity)

/-- The model of `pow(2, x)` truncated: `floorPow2 x` is the floor of the
real number `2 ^ x`. -/
theorem floorPow2_spec (x : Frac) (hd : 0 < x.den) :
    ⌊(2 : ℝ) ^ ((x.num : ℝ) / x.den)⌋ = (floorPow2 x : Int) := by
  obtain ⟨p, q, hq, hpq, hlo, hhi⟩ := floorPow2_bounds x hd
  have hx : (x.num : ℝ) / x.den = (p : ℝ) / q := by
    have hd' : (x.den : ℝ) ≠ 0 := by exact_mod_cast hd.ne'
    have hq' : (q : ℝ) ≠ 0 := by exact_mod_cast hq.ne'
    rw [div_eq_div_iff hd' hq']
    exact_mod_cast hpq.symm
  rw [hx, Int.floor_eq_iff]
  constructor
  · exact_mod_cast le_two_rpow_of_pow_le _ p q hq hlo
  · have := two_rpow_lt_of_lt_pow _ p q hq hhi
    push_cast at this ⊢
    exact this

/-- The rounding agrees with well-known binary32 values: 0.1, 1/3, a tie
above `2 ^ 24` and 1.5. -/
theorem roundBinary32_known :
    roundBinary32 ⟨1, 10⟩ = ⟨13421773, 2 ^ 27⟩ ∧ roundBinary32 ⟨1, 3⟩ = ⟨11184811, 2 ^ 25⟩ ∧
      roundBinary32 ⟨16777217, 1⟩ = ⟨16777216, 1⟩ ∧ roundBinary32 ⟨3, 2⟩ = ⟨12582912, 2 ^ 23⟩ := by
  decide!

theorem r_value : hardware_pwm.r = ⟨13421773, 524288⟩ := by decide!

theorem roundHalfEven_near (n d : Nat) (hd : 0 < d)
    (hlo : 2559999999 * d ≤ 100000000 * n)
    (hhi : 100000000 * n ≤ 2560000001 * d) :
    roundHalfEven (n * 524288) d = 13421773 := by
  have h4 : n * 524288 / d = 13421772 := by
    have a := (Nat.le_div_iff_mul_le hd).2 (show 13421772 * d ≤ n * 524288 by omega)
    have b := (Nat.div_lt_iff_lt_mul hd).2 (show n * 524288 < 13421773 * d by omega)
    omega
  have key : ∀ rem, d * 13421772 + rem = n * 524288 → d < 2 * rem := by
    intro rem h
    linarith
  have h5 := Nat.div_add_mod (n * 524288) d
  rw [h4] at h5
  have h7 := key _ h5
  have h6 : ¬ 2 * (n * 524288 % d) < d := not_lt.2 h7.le
  simp only [roundHalfEven, h4, h6, h7, if_false, if_true]

/-- Conversion to `float` is stable around 25.6: every fraction within
`10⁻⁸` of `256 / 10` has the same nearest binary32 number, the constant `r`
of `hardware_pwm`. -/
theorem roundBinary32_near_r (x : Frac) (hd : 0 < x.den)
    (hlo : 2559999999 * x.den ≤ 100000000 * x.num)
    (hhi : 100000000 * x.num ≤ 2560000001 * x.den) :
    roundBinary32 x = hardware_pwm.r := by
  have h0 : x.num ≠ 0 := by omega
  have h1 : x.den ≤ x.num := by omega
  have h2 : x.num / x.den = 25 := by
    have a := (Nat.le_div_iff_mul_le hd).2 (show 25 * x.den ≤ x.num by omega)
    have b := (Nat.div_lt_iff_lt_mul hd).2 (show x.num < 26 * x.den by omega)
    omega
  have h3 : log2Floor 25 = 4 := by decide
  have h4 : (4 : Nat) ≤ 23 := by decide
  have h5 : 2 ^ (23 - 4) = 524288 := by decide
  rw [r_value]
  simp only [roundBinary32, h0, h1, h2, h3, h4, h5, if_false, if_true,
    roundHalfEven_near x.num x.den hd hlo hhi]

namespace hardware_pwm

theorem quotient_exact : ∀ i, i < 257 →
    0 < (quotient i).den ∧ (quotient i).num * 128 = 5 * i * (quotient i).den := by
  decide!

/-- Dropping the fraction is insensitive to the rounding of `pow`: at every
step the real power is either an exact integer (steps 0, 128, 256) or
stays strictly between two integers by a relative margin of `2⁻⁴⁰`. -/
theorem pwm_margin : ∀ i, i < 257 →
    (floorPow2 (quotient i)) ^ 128 = 32 ^ i ∨
      ((floorPow2 (quotient i)) ^ 128 * (2 ^ 40) ^ 128 ≤ 32 ^ i * (2 ^ 40 - 1) ^ 128 ∧
        32 ^ i * (2 ^ 40 + 1) ^ 128 < (floorPow2 (quotient i) + 1) ^ 128 * (2 ^ 40) ^ 128) := by
  decide!

theorem pwm_step : ∀ i, i < 256 → pwm i ≤ pwm (i + 1) := by
  decide!

theorem pwm_mono (i j : Nat) (hij : i ≤ j) (hj : j ≤ 256) : pwm i ≤ pwm j := by
  induction j with
  | zero =>
    have : i = 0 := by omega
    rw [this]
  | succ n ih =>
    by_cases h : i = n + 1
    · rw [h]
    · exact le_trans (ih (by omega) (by omega)) (pwm_step n (by omega))

theorem real_r : (256 * Real.logb 10 2) / Real.logb 10 1024 = 128 / 5 := by
  have h2 : Real.log 2 ≠ 0 := by
    have := Real.log_pos (by norm_num : (1 : ℝ) < 2)
    exact this.ne'
  have h10 : Real.log 10 ≠ 0 := by
    have := Real.log_pos (by norm_num : (1 : ℝ) < 10)
    exact this.ne'
  have h1024 : Real.log 1024 = 10 * Real.log 2 := by
    rw [show (1024 : ℝ) = 2 ^ 10 by norm_num, Real.log_pow]
    norm_num
  simp only [Real.logb, h1024]
  field_simp
  ring

theorem pwm_eq_floor (i : Nat) (hi : i ≤ 256) :
    pwm i = ⌊(2 : ℝ) ^ ((i : ℝ) / ((256 * Real.logb 10 2) / Real.logb 10 1024))⌋ - 1 := by
  obtain ⟨hd, hq⟩ := quotient_exact i (by omega)
  have hx : ((quotient i).num : ℝ) / (quotient i).den = (i : ℝ) / (128 / 5) := by
    have hd' : ((quotient i).den : ℝ) ≠ 0 := by exact_mod_cast hd.ne'
    rw [div_eq_div_iff hd' (by norm_num)]
    have : ((quotient i).num : ℝ) * 128 = 5 * i * (quotient i).den := by exact_mod_cast hq
    linarith
  rw [real_r, ← hx, floorPow2_spec _ hd]
  rfl

theorem pwmValues_append (a b : List Event) :
    pwmValues (a ++ b) = pwmValues a ++ pwmValues b := by
  induction a with
  | nil => rfl
  | cons e t ih => cases e <;> simp [pwmValues, ih]

theorem pwmValues_steps (f : Nat → Nat) (l : List Nat) :
    pwmValues (l.flatMap fun k => [Event.pwmWrite GRN_LED (pwm (f k)), Event.usleep SLEEP_TIME_US])
      = l.map fun k => (GRN_LED, pwm (f k)) := by
  induction l with
  | nil => rfl
  | cons a t ih =>
    simp only [List.flatMap_cons, List.map_cons, List.cons_append, List.nil_append, pwmValues]
    exact congrArg _ ih

theorem ramp_up_values :
    pwmValues ramp_up = (List.range 256).map fun i => (GRN_LED, pwm i) :=
  pwmValues_steps (fun i => i) (List.range 256)

theorem ramp_down_values :
    pwmValues ramp_down = (List.range 256).map fun k => (GRN_LED, pwm (256 - k)) :=
  pwmValues_steps (fun k => 256 - k) (List.range 256)

theorem pulse_passes_values (rounds : Nat) :
    ∀ pv ∈ pwmValues (passes rounds), ∃ i, i ≤ 256 ∧ pv = (GRN_LED, pwm i) := by
  induction rounds with
  | zero => simp [passes, pwmValues]
  | succ n ih =>
    intro pv hpv
    simp only [passes, pwmValues_append, List.mem_append, ramp_up_values, ramp_down_values,
      List.mem_map, List.mem_range] at hpv
    rcases hpv with (⟨i, hi, rfl⟩ | ⟨k, _, rfl⟩) | h
    · exact ⟨i, by omega, rfl⟩
    · exact ⟨256 - k, by omega, rfl⟩
    · exact ih pv h

theorem pulse_passes_count (rounds : Nat) : (pwmValues (passes rounds)).length = 512 * rounds := by
  induction rounds with
  | zero => rfl
  | succ n ih =>
    simp only [passes, pwmValues_append, List.length_append, ramp_up_values, ramp_down_values,
      List.length_map, List.length_range, ih]
    omega

end hardware_pwm

/-- C5: with `r` the `float` constant of `hardware_pwm` and `pwm i` the
integer written at step `i`: `pwm 0 = 0`, `pwm 256 = 1023`, and
`pwm i ≤ pwm j` for all `0 ≤ i ≤ j ≤ 256`; consequently each of the 512
values written in every pass of the endless loop lies in [0, 1024] (in fact
in [0, 1023]). -/
theorem hardware_pwm_duty_monotone :
    hardware_pwm.pwm 0 = 0 ∧ hardware_pwm.pwm 256 = 1023 ∧
      (∀ i j, i ≤ j → j ≤ 256 → hardware_pwm.pwm i ≤ hardware_pwm.pwm j) ∧
      (∀ rounds, (pwmValues (hardware_pwm rounds)).length = 512 * rounds) ∧
      (∀ rounds, ∀ pv ∈ pwmValues (hardware_pwm rounds), 0 ≤ pv.2 ∧ pv.2 ≤ 1024) := by
  have h0 : hardware_pwm.pwm 0 = 0 := by decide!
  have h256 : hardware_pwm.pwm 256 = 1023 := by decide!
  have hpre : pwmValues ([Event.printf "Green LED pulse! Use CTRL+C to exit.\n"] ++
      set_colour Off ++ [Event.pinMode GRN_LED PinMode.PWM_OUTPUT]) = [] := by decide
  refine ⟨h0, h256, hardware_pwm.pwm_mono, ?_, ?_⟩
  · intro rounds
    rw [hardware_pwm, hardware_pwm.pwmValues_append, hpre, List.nil_append,
      hardware_pwm.pulse_passes_count]
  · intro rounds pv hpv
    rw [hardware_pwm, hardware_pwm.pwmValues_append, hpre, List.nil_append] at hpv
    obtain ⟨i, hi, rfl⟩ := hardware_pwm.pulse_passes_values rounds pv hpv
    have lo := hardware_pwm.pwm_mono 0 i (Nat.zero_le i) hi
    have hi' := hardware_pwm.pwm_mono i 256 hi (le_refl _)
    rw [h0] at lo
    rw [h256] at hi'
    exact ⟨lo, by simp only; omega⟩

/-- C5 at two concrete steps: the duty at step 100 is at most the duty at
step 200. -/
theorem hardware_pwm_duty_monotone_witness :
    hardware_pwm.pwm 100 ≤ hardware_pwm.pwm 200 :=
  hardware_pwm_duty_monotone.2.2.1 100 200 (by decide) (by decide)

/-- C9 fails as stated: at step 20 the code writes 0, while
`round(2^(20 / r)) - 1` is 1, the power being about 1.72. -/
theorem hardware_pwm_not_rounded :
    hardware_pwm.pwm 20 ≠
      round ((2 : ℝ) ^ ((20 : ℝ) / ((256 * Real.logb 10 2) / Real.logb 10 1024))) - 1 := by
  have hpwm : hardware_pwm.pwm 20 = 0 := by decide!
  have hx : (20 : ℝ) / (128 / 5) = ((25 : ℕ) : ℝ) / ((32 : ℕ) : ℝ) := by norm_num
  have hy : ((57 : ℕ) : ℝ) / ((32 : ℕ) : ℝ) = 1 + ((25 : ℕ) : ℝ) / ((32 : ℕ) : ℝ) := by norm_num
  have hlo := le_two_rpow_of_pow_le 3 57 32 (by decide) (by norm_num)
  have hhi := two_rpow_lt_of_lt_pow 5 57 32 (by decide) (by norm_num)
  rw [hy, Real.rpow_add (by norm_num), Real.rpow_one] at hlo hhi
  have hround : round ((2 : ℝ) ^ (((25 : ℕ) : ℝ) / ((32 : ℕ) : ℝ))) = 2 := by
    rw [round_eq, Int.floor_eq_iff]
    push_cast at hlo hhi ⊢
    constructor <;> linarith
  rw [hardware_pwm.real_r, hx, hround, hpwm]
  decide

/-- C9, amended: in each pass `hardware_pwm` writes the duty `pwm i` for
`i = 0, ..., 255` on the ramp up and for `i = 256, ..., 1` on the ramp down,
and for every such step `pwm i` is `2^(i / r) - 1` with the fraction dropped,
that is `floor(2^(i / r)) - 1` (not rounded to nearest), where
`r = (256 * log10(2)) / log10(1024)`. -/
theorem hardware_pwm_duty_floor :
    pwmValues hardware_pwm.ramp_up = (List.range 256).map (fun i => (GRN_LED, hardware_pwm.pwm i)) ∧
      pwmValues hardware_pwm.ramp_down =
        (List.range 256).map (fun k => (GRN_LED, hardware_pwm.pwm (256 - k))) ∧
      (∀ i, i ≤ 256 →
        hardware_pwm.pwm i =
          ⌊(2 : ℝ) ^ ((i : ℝ) / ((256 * Real.logb 10 2) / Real.logb 10 1024))⌋ - 1) :=
  ⟨hardware_pwm.ramp_up_values, hardware_pwm.ramp_down_values, hardware_pwm.pwm_eq_floor⟩

/-- C9, amended, at step 20: the duty written is the floor of `2^(20 / r)`
less one. -/
theorem hardware_pwm_duty_floor_witness :
    hardware_pwm.pwm 20 =
      ⌊(2 : ℝ) ^ (((20 : ℕ) : ℝ) / ((256 * Real.logb 10 2) / Real.logb 10 1024))⌋ - 1 :=
  hardware_pwm_duty_floor.2.2 20 (by decide)

end LedDemo
